import Mathlib

/-!
Verification development for the Reddington quote pipeline
(`src/utils/data_processor.py`, `src/utils/enricher.py`,
`src/scrapers/base_scraper.py`, `src/api/main.py`).

Python strings are modelled as `List Char`; Python floats (similarity
ratios, thresholds, sleep durations) are modelled as exact rationals `ℚ`;
Python `dict` records are modelled as a structure with `Option` fields, and
Python truthiness of those fields is modelled explicitly.  File-system and
network effects of the transcript store are modelled as explicit state
passing.
-/

namespace Reddington

/-- Python truthiness of an optional integer field: `None` and `0` are falsy,
every other integer is truthy. -/
def truthyNat : Option Nat → Bool
  | none => false
  | some n => n != 0

/-- Python truthiness of an optional string field: `None` and `""` are falsy. -/
def truthyStr : Option (List Char) → Bool
  | none => false
  | some s => !s.isEmpty

/-- Python regex class `\w` (word character): letters, digits and underscore.
We model the ASCII fragment of Python's Unicode-aware class, which is the
part exercised by the repository's data. -/
def isPyWordChar (c : Char) : Bool := c.isAlphanum || c == '_'

/-- Python regex class `\s` (whitespace), ASCII fragment:
space, tab, newline, carriage return, vertical tab, form feed. -/
def isPySpace (c : Char) : Bool :=
  c == ' ' || c == '\t' || c == '\n' || c == '\r' || c == '\x0b' || c == '\x0c'

/-- Python `str.strip()`: remove leading and trailing whitespace. -/
def pyStrip (s : List Char) : List Char :=
  ((s.dropWhile isPySpace).reverse.dropWhile isPySpace).reverse

/-- Worker for `collapseWs`: `prevSpace` records whether the previous
character belonged to a whitespace run that has already emitted its
replacement space. -/
def collapseWsAux : Bool → List Char → List Char
  | _, [] => []
  | prevSpace, c :: rest =>
    if isPySpace c then
      if prevSpace then collapseWsAux true rest
      else ' ' :: collapseWsAux true rest
    else c :: collapseWsAux false rest

/-- Python `re.sub(r"\s+", " ", s)`: replace every maximal run of whitespace
characters by a single space. -/
def collapseWs (s : List Char) : List Char := collapseWsAux false s

/-- `_normalize_for_comparison` from `src/utils/data_processor.py` (the
enricher's `_normalize` in `src/utils/enricher.py` has the identical body):
`text.lower().strip()`, then `re.sub(r"[^\w\s]", "", text)`, then
`re.sub(r"\s+", " ", text)`. -/
def normalizeForComparison (s : List Char) : List Char :=
  collapseWs ((pyStrip (s.map Char.toLower)).filter
    (fun c => isPyWordChar c || isPySpace c))

/-!
Model of `difflib.SequenceMatcher(None, a, b).ratio()`, used by
`_similarity` in `src/utils/data_processor.py`, with the default
`autojunk=True` heuristic.  Because `isjunk` is `None`, the junk set
`bjunk` is empty, and `__chain_b` only purges the "popular" elements of
`b` — those occurring more than `len(b)//100 + 1` times when
`len(b) >= 200` — from the position index `b2j`.  `find_longest_match`
therefore (1) finds the longest matching block that uses no popular `b`
element, breaking ties towards the smallest starting position in `a`,
then in `b`; (2) extends that block on both ends over arbitrary equal
elements (this pass only skips `bjunk` elements, and `bjunk` is empty, so
popular elements do extend); the final junk-extension pass never fires
(`bjunk` is empty).  `ratio()` is `2*M/T` where `M` is the total size of
the recursively chosen matching blocks and `T` the combined length (with
`ratio = 1` when `T = 0`).
-/

/-- Length of the longest common prefix of two character lists. -/
def lcp : List Char → List Char → Nat
  | a :: as, b :: bs => if a = b then lcp as bs + 1 else 0
  | _, _ => 0

/-- The `autojunk` "popular" elements of `b`: when `len(b) >= 200`, the
elements occurring more than `len(b)//100 + 1` times.  They are removed
from `b2j`, so the main loop of `find_longest_match` never matches on
them. -/
def popularChars (b : List Char) : List Char :=
  if 200 ≤ b.length then b.dedup.filter (fun c => b.length / 100 + 1 < b.count c) else []

/-- Length of the matching run of two suffixes as seen by the main loop of
`find_longest_match`: positions whose `b`-side element is popular carry no
`b2j` entry, so a run stops there just as at a mismatch. -/
def lcpJunk (pops : List Char) : List Char → List Char → Nat
  | c :: cs, d :: ds =>
    if c = d ∧ ¬ d ∈ pops then lcpJunk pops cs ds + 1 else 0
  | _, _ => 0

/-- Size of the junk-free matching run of `a` and `b` starting at positions
`i` and `j`, clipped to the windows ending at `ahi` and `bhi`. -/
def matchAt (a b pops : List Char) (ahi bhi i j : Nat) : Nat :=
  min (lcpJunk pops (a.drop i) (b.drop j)) (min (ahi - i) (bhi - j))

/-- Combine two candidate blocks, preferring the earlier (left) one unless
the later one is strictly larger — exactly the update rule
`if k > bestsize` of `find_longest_match` scanned in increasing order. -/
def pickBest (x y : Nat × Nat × Nat) : Nat × Nat × Nat :=
  if x.2.2 < y.2.2 then y else x

/-- Best junk-free block among the candidates `(i, j)` for `j ∈ js`,
scanning `js` left to right. -/
def rowBest (a b pops : List Char) (ahi bhi i blo : Nat) :
    List Nat → Nat × Nat × Nat
  | [] => (i, blo, 0)
  | j :: js =>
    pickBest (i, j, matchAt a b pops ahi bhi i j) (rowBest a b pops ahi bhi i blo js)

/-- Best junk-free block over all rows `i ∈ is`, scanning rows left to
right. -/
def gridBest (a b pops : List Char) (ahi bhi blo : Nat) (js : List Nat) (alo : Nat) :
    List Nat → Nat × Nat × Nat
  | [] => (alo, blo, 0)
  | i :: is =>
    pickBest (rowBest a b pops ahi bhi i blo js)
      (gridBest a b pops ahi bhi blo js alo is)

/-- The two extension passes of `find_longest_match` over non-`bjunk`
elements (`bjunk` is empty for `isjunk=None`, so they extend over every
matching pair of equal elements, popular ones included): first extend the
block backwards while the preceding elements match, then forwards while
the following elements match, staying inside the windows.  The backward
step count is the clipped longest common suffix of the prefixes, the
forward step count the clipped longest common prefix of the remaining
suffixes. -/
def extendMatch (a b : List Char) (alo ahi blo bhi i j k : Nat) : Nat × Nat × Nat :=
  let back := min (lcp ((a.take i).reverse) ((b.take j).reverse))
    (min (i - alo) (j - blo))
  let fwd := min (lcp (a.drop (i + k)) (b.drop (j + k)))
    (min (ahi - (i + k)) (bhi - (j + k)))
  (i - back, j - back, k + back + fwd)

/-- `find_longest_match` on the windows `a[alo:ahi]`, `b[blo:bhi]`: the
lexicographically first junk-free block of maximal run size
(`(alo, blo, 0)` when there is none), extended over matching elements on
both ends. -/
def bestMatch (a b : List Char) (alo ahi blo bhi : Nat) : Nat × Nat × Nat :=
  let pops := popularChars b
  let m := gridBest a b pops ahi bhi blo (List.range' blo (bhi - blo)) alo
    (List.range' alo (ahi - alo))
  extendMatch a b alo ahi blo bhi m.1 m.2.1 m.2.2

/-- Total size of the matching blocks of `SequenceMatcher`: recursively take
the longest match and recurse on the pieces to its left and right.  The
`fuel` argument dominates the recursion depth; every call made by
`similarity` supplies enough fuel (the combined string length plus one
strictly exceeds the depth, which shrinks the combined window size by at
least two per level). -/
def matchTotal (a b : List Char) : Nat → Nat → Nat → Nat → Nat → Nat
  | 0, _, _, _, _ => 0
  | fuel + 1, alo, ahi, blo, bhi =>
    let t := bestMatch a b alo ahi blo bhi
    if t.2.2 = 0 then 0
    else
      matchTotal a b fuel alo t.1 blo t.2.1 + t.2.2 +
        matchTotal a b fuel (t.1 + t.2.2) ahi (t.2.1 + t.2.2) bhi

/-- `_similarity` from `src/utils/data_processor.py`:
`SequenceMatcher(None, a, b).ratio()`, i.e. `2*M/T` (and `1` when `T = 0`),
modelled over `ℚ`.  `mkRat` is used so that the definition evaluates inside
the kernel; `similarity_eq_div` below restates it as a division. -/
def similarity (a b : List Char) : ℚ :=
  if a.length + b.length = 0 then 1
  else
    mkRat (2 * (matchTotal a b (a.length + b.length + 1) 0 a.length 0 b.length : Int))
      (a.length + b.length)

/-!
Data model: the quote record dictionary described in
`src/scrapers/base_scraper.py` (`BaseScraper` docstring).
-/

/-- One quote record.  Optional fields model Python values that may be
`None` (or missing, which `dict.get` also reports as `None`). -/
structure Quote where
  quote : List Char
  season : Option Nat := none
  episode : Option Nat := none
  episode_title : Option (List Char) := none
  context : Option (List Char) := none
  source_url : List Char := []
  source_name : List Char := []
deriving DecidableEq

/-!
The deduplicator, `deduplicate` in `src/utils/data_processor.py`.
-/

/-- `_metadata_score`: +2 for a truthy `season`, +2 for a truthy `episode`,
+1 for a truthy `episode_title`, +1 for a truthy `context`. -/
def metadataScore (q : Quote) : Nat :=
  (if truthyNat q.season then 2 else 0) +
  (if truthyNat q.episode then 2 else 0) +
  (if truthyStr q.episode_title then 1 else 0) +
  (if truthyStr q.context then 1 else 0)

/-- Ordering used by `sorted(quotes, key=_metadata_score, reverse=True)`:
`a` may come before `b` exactly when `score b ≤ score a`. -/
def scoreGe (a b : Quote) : Prop := metadataScore b ≤ metadataScore a

instance : DecidableRel scoreGe := fun a b =>
  inferInstanceAs (Decidable (metadataScore b ≤ metadataScore a))

instance : IsTotal Quote scoreGe :=
  ⟨fun a b => Nat.le_total (metadataScore b) (metadataScore a)⟩

instance : IsTrans Quote scoreGe :=
  ⟨fun _ _ _ h1 h2 => Nat.le_trans h2 h1⟩

instance : IsRefl Quote scoreGe := ⟨fun a => Nat.le_refl (metadataScore a)⟩

/-- `sorted(quotes, key=_metadata_score, reverse=True)`: Python's stable
descending sort by metadata score.  A stable sort by a total preorder is
unique, so the (stable) insertion sort by `scoreGe` produces exactly the
list Python's stable sort produces. -/
def sortByScoreDesc (qs : List Quote) : List Quote :=
  qs.insertionSort scoreGe

/-- The inner loop of `deduplicate`: is `norm` a duplicate of some entry of
`normalized_cache`?  The cheap length pre-filter `0.5 < len_ratio < 2.0`
guards the similarity computation. -/
def isDupOf (threshold : ℚ) (norm : List Char) (cache : List (List Char)) : Bool :=
  cache.any fun ex =>
    let lenRat : ℚ := mkRat (norm.length : Int) (max ex.length 1)
    decide (mkRat 1 2 < lenRat) && decide (lenRat < 2) &&
      decide (threshold ≤ similarity norm ex)

/-- Main loop of `deduplicate` over the richness-sorted list, carrying the
parallel `normalized_cache` of accepted normalized texts. -/
def dedupGo (threshold : ℚ) : List Quote → List (List Char) → List Quote
  | [], _ => []
  | q :: rest, cache =>
    let norm := normalizeForComparison q.quote
    if norm.length < 10 then dedupGo threshold rest cache
    else if isDupOf threshold norm cache then dedupGo threshold rest cache
    else q :: dedupGo threshold rest (cache ++ [norm])

/-- `deduplicate(quotes, threshold)` from `src/utils/data_processor.py`. -/
def deduplicate (qs : List Quote) (threshold : ℚ) : List Quote :=
  if qs.isEmpty then [] else dedupGo threshold (sortByScoreDesc qs) []

/-!
The enricher, `QuoteEnricher` in `src/utils/enricher.py`.
-/

/-- Does `hay` start with `needle`? -/
def startsWith : List Char → List Char → Bool
  | _, [] => true
  | [], _ :: _ => false
  | h :: hs, n :: ns => h == n && startsWith hs ns

/-- Python's substring test `needle in hay`. -/
def containsSub (hay needle : List Char) : Bool :=
  if startsWith hay needle then true
  else
    match hay with
    | [] => false
    | _ :: rest => containsSub rest needle

/-- Python `str.split()` with no argument: split on whitespace runs and
drop empty pieces.  `acc` is the word under construction, reversed. -/
def pySplitAux : List Char → List Char → List (List Char)
  | [], acc => if acc.isEmpty then [] else [acc.reverse]
  | c :: rest, acc =>
    if isPySpace c then
      if acc.isEmpty then pySplitAux rest [] else acc.reverse :: pySplitAux rest []
    else pySplitAux rest (c :: acc)

/-- Python `str.split()` with no argument. -/
def pySplit (s : List Char) : List (List Char) := pySplitAux s []

/-- Python `range(0, stop, 3)` as a list. -/
def pyRange3 (stop : Nat) : List Nat :=
  (List.range ((stop + 2) / 3)).map (fun k => 3 * k)

/-- The chunk `" ".join(quote_words[i:i+chunk_size])`. -/
def chunkAt (ws : List (List Char)) (chunkSize i : Nat) : List Char :=
  List.intercalate [' '] ((ws.drop i).take chunkSize)

/-- `QuoteEnricher._find_in_transcript(quote, norm_transcript)` from
`src/utils/enricher.py`: tier 1 exact normalized substring; quotes of at
most 5 words stop there; otherwise slide a window of
`min(5, wordcount - 1)` words with stride 3 and require
`matches >= (2 if len(chunks) >= 3 else 1)`. -/
def findInTranscript (quote normTranscript : List Char) : Bool :=
  let normQuote := normalizeForComparison quote
  if containsSub normTranscript normQuote then true
  else
    let quoteWords := pySplit normQuote
    if quoteWords.length ≤ 5 then false
    else
      let chunkSize := min 5 (quoteWords.length - 1)
      let chunks := (pyRange3 (quoteWords.length - chunkSize + 1)).map
        (chunkAt quoteWords chunkSize)
      if chunks.isEmpty then false
      else
        let matched := (chunks.filter (containsSub normTranscript)).length
        let minMatches := if chunks.length ≥ 3 then 2 else 1
        decide (minMatches ≤ matched)

/-- Reference match decision, written from the specification's words
(spec 4.5 and claim C2): match if the normalized quote is a substring of
the normalized transcript; otherwise a quote of at most 5 normalized words
never matches; otherwise form the stride-3 window chunks and match exactly
when (chunk count ≥ 3 and matched ≥ 2) or (chunk count < 3 and
matched ≥ 1). -/
def findInTranscriptSpecRef (quote normTranscript : List Char) : Bool :=
  let normQuote := normalizeForComparison quote
  if containsSub normTranscript normQuote then true
  else
    let quoteWords := pySplit normQuote
    if quoteWords.length ≤ 5 then false
    else
      let chunks := (pyRange3 (quoteWords.length - min 5 (quoteWords.length - 1) + 1)).map
        (chunkAt quoteWords (min 5 (quoteWords.length - 1)))
      let matched := (chunks.filter (containsSub normTranscript)).length
      (decide (3 ≤ chunks.length) && decide (2 ≤ matched)) ||
        (decide (chunks.length < 3) && decide (1 ≤ matched))

/-- Episode-title lookup `titles.get((season, episode), "")` used by
`enrich_quotes`. -/
def lookupTitle (titles : List ((Nat × Nat) × List Char)) (k : Nat × Nat) :
    List Char :=
  match titles.lookup k with
  | some t => t
  | none => []

/-- Enrichment of a single untagged record: scan the (insertion-ordered)
transcript map and stop at the first transcript judged a match, setting
`season`, `episode` and `episode_title`. -/
def enrichOne (transcripts : List ((Nat × Nat) × List Char))
    (titles : List ((Nat × Nat) × List Char)) (q : Quote) : Quote :=
  match transcripts.find? (fun p => findInTranscript q.quote p.2) with
  | none => q
  | some (k, _) =>
    { q with
      season := some k.1
      episode := some k.2
      episode_title := some (lookupTitle titles k) }

/-- `QuoteEnricher.enrich_quotes` from `src/utils/enricher.py`: records
whose `season` is `None` are cross-referenced (and mutated in place on a
match); all other records pass through untouched.  `transcripts` is the
pre-normalized transcript map in its iteration order, `titles` the episode
title index. -/
def enrichQuotes (transcripts titles : List ((Nat × Nat) × List Char))
    (qs : List Quote) : List Quote :=
  qs.map fun q => if q.season = none then enrichOne transcripts titles q else q

/-!
The transcript store, `QuoteEnricher._fetch_and_cache_transcript` in
`src/utils/enricher.py`.  The cache directory is modelled as an association
list keyed by `(season, episode)`; the outside world (one HTTP fetch plus
HTML extraction) is modelled as the value the fetch would produce.
-/

/-- Outcome of the network fetch and HTML parse for one episode page:
the request may raise (`fail`), or the page may lack the expected
transcript container (`page none`), or it yields the extracted transcript
text (`page (some t)`). -/
inductive FetchOutcome where
  | fail
  | page (container : Option (List Char))
deriving DecidableEq

/-- The on-disk transcript cache, keyed by `(season, episode)`. -/
abbrev Cache := List ((Nat × Nat) × List Char)

/-- Result of one `_fetch_and_cache_transcript` call: the returned text,
the cache state afterwards, and whether the network was touched. -/
structure FetchResult where
  text : List Char
  cache : Cache
  networkUsed : Bool
deriving DecidableEq

/-- `_fetch_and_cache_transcript(season, episode)`: return the cached text
when the cache file exists (no network); otherwise fetch — on a request
error or a missing transcript container return `""` without writing the
cache; on success write the cache file and return the transcript. -/
def fetchAndCacheTranscript (c : Cache) (key : Nat × Nat)
    (world : FetchOutcome) : FetchResult :=
  match List.lookup key c with
  | some t => ⟨t, c, false⟩
  | none =>
    match world with
    | .fail => ⟨[], c, true⟩
    | .page none => ⟨[], c, true⟩
    | .page (some t) => ⟨t, (key, t) :: c, true⟩

/-!
The politeness delays (`src/scrapers/base_scraper.py` and
`src/utils/enricher.py`).  `random.uniform(a, b)` is `a + (b - a) * r` for
a draw `r ∈ [0, 1]`; durations are modelled in `ℚ` seconds.
-/

/-- Duration slept by `BaseScraper._polite_delay(min_sec, max_sec)` for the
random draw `r ∈ [0, 1]`. -/
def politeDelayDuration (minSec maxSec r : ℚ) : ℚ :=
  minSec + (maxSec - minSec) * r

/-- Duration of the delay `_polite_delay()` performed by
`BaseScraper._fetch_page` before each scraper page fetch
(defaults `min_sec = 1.0`, `max_sec = 3.0`). -/
def fetchPageDelayDuration (r : ℚ) : ℚ := politeDelayDuration 1 3 r

/-- Duration of the fixed `time.sleep(1.5)` performed by
`_fetch_and_cache_transcript` before each transcript download. -/
def transcriptDelayDuration : ℚ := 3/2

/-!
The read API's list operation, `get_quotes` in `src/api/main.py`.
-/

/-- `get_quotes(season, episode)`: start from the loaded collection and
apply each filter only when the query value is truthy (`if season: ...`,
`if episode: ...`). -/
def getQuotes (qs : List Quote) (season episode : Option Nat) : List Quote :=
  let f1 := if truthyNat season then qs.filter (fun q => q.season == season) else qs
  if truthyNat episode then f1.filter (fun q => q.episode == episode) else f1

/-!
Helper lemmas.
-/

/-- Rewrites the executable `mkRat` form into a genuine division. -/
theorem mkRat_natCast_div (n d : Nat) : (mkRat (n : Int) d : ℚ) = (n : ℚ) / (d : ℚ) := by
  rw [Rat.mkRat_eq_divInt, Rat.divInt_eq_div]
  push_cast
  ring

theorem matchAt_le_left (a b pops : List Char) (ahi bhi i j : Nat) :
    matchAt a b pops ahi bhi i j ≤ ahi - i := by
  unfold matchAt
  omega

theorem matchAt_le_right (a b pops : List Char) (ahi bhi i j : Nat) :
    matchAt a b pops ahi bhi i j ≤ bhi - j := by
  unfold matchAt
  omega

/-- A row search returns its dummy base or an actual candidate of the row. -/
theorem rowBest_cases (a b pops : List Char) (ahi bhi i blo : Nat) (js : List Nat) :
    rowBest a b pops ahi bhi i blo js = (i, blo, 0) ∨
      ∃ j ∈ js, rowBest a b pops ahi bhi i blo js = (i, j, matchAt a b pops ahi bhi i j) := by
  induction js with
  | nil => left; rfl
  | cons j js ih =>
    simp only [rowBest, pickBest]
    by_cases h : (i, j, matchAt a b pops ahi bhi i j).2.2 <
        (rowBest a b pops ahi bhi i blo js).2.2
    · rw [if_pos h]
      rcases ih with h1 | ⟨j', hj', h1⟩
      · left; exact h1
      · right; exact ⟨j', List.mem_cons_of_mem _ hj', h1⟩
    · rw [if_neg h]
      right
      exact ⟨j, List.mem_cons_self _ _, rfl⟩

/-- The grid search returns its base value or the result of one row. -/
theorem gridBest_cases (a b pops : List Char) (ahi bhi blo : Nat) (js : List Nat)
    (alo : Nat) (is : List Nat) :
    gridBest a b pops ahi bhi blo js alo is = (alo, blo, 0) ∨
      ∃ i ∈ is, gridBest a b pops ahi bhi blo js alo is = rowBest a b pops ahi bhi i blo js := by
  induction is with
  | nil => left; rfl
  | cons i is ih =>
    simp only [gridBest, pickBest]
    by_cases h : (rowBest a b pops ahi bhi i blo js).2.2 <
        (gridBest a b pops ahi bhi blo js alo is).2.2
    · rw [if_pos h]
      rcases ih with h1 | ⟨i', hi', h1⟩
      · left; exact h1
      · right; exact ⟨i', List.mem_cons_of_mem _ hi', h1⟩
    · rw [if_neg h]
      right
      exact ⟨i, List.mem_cons_self _ _, rfl⟩

/-- The extended best block lies inside both windows whenever it is nonempty. -/
theorem bestMatch_valid (a b : List Char) (alo ahi blo bhi : Nat)
    (h : (bestMatch a b alo ahi blo bhi).2.2 ≠ 0) :
    alo ≤ (bestMatch a b alo ahi blo bhi).1 ∧
      (bestMatch a b alo ahi blo bhi).1 + (bestMatch a b alo ahi blo bhi).2.2 ≤ ahi ∧
      blo ≤ (bestMatch a b alo ahi blo bhi).2.1 ∧
      (bestMatch a b alo ahi blo bhi).2.1 + (bestMatch a b alo ahi blo bhi).2.2 ≤ bhi := by
  revert h
  unfold bestMatch
  simp only []
  rcases gridBest_cases a b (popularChars b) ahi bhi blo (List.range' blo (bhi - blo)) alo
      (List.range' alo (ahi - alo)) with hg | ⟨i, hi, hg⟩
  · rw [hg]
    unfold extendMatch
    intro h
    simp only at h ⊢
    omega
  · rcases rowBest_cases a b (popularChars b) ahi bhi i blo (List.range' blo (bhi - blo)) with
      hr | ⟨j, hj, hr⟩
    · rw [hg, hr]
      rw [List.mem_range'] at hi
      obtain ⟨ki, hki, rfl⟩ := hi
      unfold extendMatch
      intro h
      simp only at h ⊢
      omega
    · rw [hg, hr]
      rw [List.mem_range'] at hi hj
      obtain ⟨ki, hki, rfl⟩ := hi
      obtain ⟨kj, hkj, rfl⟩ := hj
      have h1 := matchAt_le_left a b (popularChars b) ahi bhi (alo + 1 * ki) (blo + 1 * kj)
      have h2 := matchAt_le_right a b (popularChars b) ahi bhi (alo + 1 * ki) (blo + 1 * kj)
      unfold extendMatch
      intro h
      simp only at h ⊢
      omega

/-- The matched total is at most the size of the `a`-window. -/
theorem matchTotal_le_left (a b : List Char) :
    ∀ (fuel alo ahi blo bhi : Nat), matchTotal a b fuel alo ahi blo bhi ≤ ahi - alo := by
  intro fuel
  induction fuel with
  | zero => intro _ _ _ _; simp [matchTotal]
  | succ n ih =>
    intro alo ahi blo bhi
    simp only [matchTotal]
    by_cases h : (bestMatch a b alo ahi blo bhi).2.2 = 0
    · simp [h]
    · simp only [h, if_false]
      have hv := bestMatch_valid a b alo ahi blo bhi h
      have h1 := ih alo (bestMatch a b alo ahi blo bhi).1 blo
        (bestMatch a b alo ahi blo bhi).2.1
      have h2 := ih ((bestMatch a b alo ahi blo bhi).1 + (bestMatch a b alo ahi blo bhi).2.2)
        ahi ((bestMatch a b alo ahi blo bhi).2.1 + (bestMatch a b alo ahi blo bhi).2.2) bhi
      omega

/-- The matched total is at most the size of the `b`-window. -/
theorem matchTotal_le_right (a b : List Char) :
    ∀ (fuel alo ahi blo bhi : Nat), matchTotal a b fuel alo ahi blo bhi ≤ bhi - blo := by
  intro fuel
  induction fuel with
  | zero => intro _ _ _ _; simp [matchTotal]
  | succ n ih =>
    intro alo ahi blo bhi
    simp only [matchTotal]
    by_cases h : (bestMatch a b alo ahi blo bhi).2.2 = 0
    · simp [h]
    · simp only [h, if_false]
      have hv := bestMatch_valid a b alo ahi blo bhi h
      have h1 := ih alo (bestMatch a b alo ahi blo bhi).1 blo
        (bestMatch a b alo ahi blo bhi).2.1
      have h2 := ih ((bestMatch a b alo ahi blo bhi).1 + (bestMatch a b alo ahi blo bhi).2.2)
        ahi ((bestMatch a b alo ahi blo bhi).2.1 + (bestMatch a b alo ahi blo bhi).2.2) bhi
      omega

theorem range'_pairwise_lt (s n : Nat) : (List.range' s n).Pairwise (· < ·) := by
  induction n generalizing s with
  | zero => simp
  | succ m ih =>
    rw [List.range'_succ]
    rw [List.pairwise_cons]
    refine ⟨?_, ih (s + 1)⟩
    intro b hb
    rw [List.mem_range'] at hb
    omega

/-- Combining candidates keeps the larger run size. -/
theorem pickBest_k (x y : Nat × Nat × Nat) :
    (pickBest x y).2.2 = max x.2.2 y.2.2 := by
  unfold pickBest
  by_cases h : x.2.2 < y.2.2
  · rw [if_pos h]; omega
  · rw [if_neg h]; omega

/-- A row search always reports its own row index. -/
theorem rowBest_fst (a b pops : List Char) (ahi bhi i blo : Nat) (js : List Nat) :
    (rowBest a b pops ahi bhi i blo js).1 = i := by
  induction js with
  | nil => rfl
  | cons j js ih =>
    simp only [rowBest, pickBest]
    by_cases h : (i, j, matchAt a b pops ahi bhi i j).2.2 <
        (rowBest a b pops ahi bhi i blo js).2.2
    · rw [if_pos h]; exact ih
    · rw [if_neg h]

/-- The row result dominates every candidate of the row. -/
theorem rowBest_le (a b pops : List Char) (ahi bhi i blo : Nat) (js : List Nat) :
    ∀ j ∈ js, matchAt a b pops ahi bhi i j ≤ (rowBest a b pops ahi bhi i blo js).2.2 := by
  induction js with
  | nil => intro j hj; simp at hj
  | cons j0 js ih =>
    intro j hj
    simp only [rowBest]
    rw [pickBest_k]
    rcases List.mem_cons.mp hj with rfl | hmem
    · simp only
      omega
    · have := ih j hmem
      omega

/-- The grid result dominates every row result. -/
theorem gridBest_le_row (a b pops : List Char) (ahi bhi blo : Nat) (js : List Nat)
    (alo : Nat) (is : List Nat) :
    ∀ i ∈ is, (rowBest a b pops ahi bhi i blo js).2.2 ≤
      (gridBest a b pops ahi bhi blo js alo is).2.2 := by
  induction is with
  | nil => intro i hi; simp at hi
  | cons i0 is ih =>
    intro i hi
    simp only [gridBest]
    rw [pickBest_k]
    rcases List.mem_cons.mp hi with rfl | hmem
    · omega
    · have := ih i hmem
      omega

/-- Within a row (scanned in increasing order), every candidate strictly before the winner is strictly smaller — the winner is the first maximizer. -/
theorem rowBest_first (a b pops : List Char) (ahi bhi i blo : Nat) :
    ∀ js : List Nat, js.Pairwise (· < ·) →
      ∀ j ∈ js, j < (rowBest a b pops ahi bhi i blo js).2.1 →
        matchAt a b pops ahi bhi i j < (rowBest a b pops ahi bhi i blo js).2.2 := by
  intro js
  induction js with
  | nil => intro _ j hj; simp at hj
  | cons j0 js ih =>
    intro hpw j hj hlt
    have hpw2 := (List.pairwise_cons.mp hpw).2
    have hhead := (List.pairwise_cons.mp hpw).1
    simp only [rowBest, pickBest] at hlt ⊢
    by_cases h : (i, j0, matchAt a b pops ahi bhi i j0).2.2 <
        (rowBest a b pops ahi bhi i blo js).2.2
    · rw [if_pos h] at hlt ⊢
      rcases List.mem_cons.mp hj with rfl | hmem
      · simpa using h
      · exact ih hpw2 j hmem hlt
    · rw [if_neg h] at hlt ⊢
      simp only at hlt
      rcases List.mem_cons.mp hj with rfl | hmem
      · omega
      · exact absurd hlt (by have := hhead j hmem; omega)

/-- Every row strictly before the winning row has a strictly smaller row result — the winning row is the first maximizer. -/
theorem gridBest_first (a b pops : List Char) (ahi bhi blo : Nat) (js : List Nat)
    (alo : Nat) :
    ∀ is : List Nat, is.Pairwise (· < ·) →
      ∀ i ∈ is, i < (gridBest a b pops ahi bhi blo js alo is).1 →
        (rowBest a b pops ahi bhi i blo js).2.2 <
          (gridBest a b pops ahi bhi blo js alo is).2.2 := by
  intro is
  induction is with
  | nil => intro _ i hi; simp at hi
  | cons i0 is ih =>
    intro hpw i hi hlt
    have hpw2 := (List.pairwise_cons.mp hpw).2
    have hhead := (List.pairwise_cons.mp hpw).1
    simp only [gridBest, pickBest] at hlt ⊢
    by_cases h : (rowBest a b pops ahi bhi i0 blo js).2.2 <
        (gridBest a b pops ahi bhi blo js alo is).2.2
    · rw [if_pos h] at hlt ⊢
      rcases List.mem_cons.mp hi with rfl | hmem
      · exact h
      · exact ih hpw2 i hmem hlt
    · rw [if_neg h] at hlt ⊢
      rw [rowBest_fst] at hlt
      rcases List.mem_cons.mp hi with rfl | hmem
      · omega
      · exact absurd hlt (by have := hhead i hmem; omega)

/-- On a nonempty candidate list the row search returns an actual candidate. -/
theorem rowBest_mem (a b pops : List Char) (ahi bhi i blo : Nat) :
    ∀ (j0 : Nat) (js : List Nat), ∃ j ∈ j0 :: js,
      rowBest a b pops ahi bhi i blo (j0 :: js) = (i, j, matchAt a b pops ahi bhi i j) := by
  intro j0 js
  induction js generalizing j0 with
  | nil =>
    refine ⟨j0, List.mem_cons_self _ _, ?_⟩
    simp only [rowBest, pickBest]
    rw [if_neg (by simp)]
  | cons j1 js ih =>
    obtain ⟨j', hj', hr⟩ := ih j1
    have hstep : rowBest a b pops ahi bhi i blo (j0 :: j1 :: js) =
        pickBest (i, j0, matchAt a b pops ahi bhi i j0)
          (rowBest a b pops ahi bhi i blo (j1 :: js)) := rfl
    rw [hstep, hr]
    unfold pickBest
    by_cases h : ((i, j0, matchAt a b pops ahi bhi i j0) : Nat × Nat × Nat).2.2 <
        ((i, j', matchAt a b pops ahi bhi i j') : Nat × Nat × Nat).2.2
    · rw [if_pos h]
      exact ⟨j', List.mem_cons_of_mem _ hj', rfl⟩
    · rw [if_neg h]
      exact ⟨j0, List.mem_cons_self _ _, rfl⟩

/-- On a nonempty row list the grid search returns some row result. -/
theorem gridBest_mem (a b pops : List Char) (ahi bhi blo : Nat) (js : List Nat)
    (alo : Nat) :
    ∀ (i0 : Nat) (is : List Nat), ∃ i ∈ i0 :: is,
      gridBest a b pops ahi bhi blo js alo (i0 :: is) = rowBest a b pops ahi bhi i blo js := by
  intro i0 is
  induction is generalizing i0 with
  | nil =>
    refine ⟨i0, List.mem_cons_self _ _, ?_⟩
    simp only [gridBest, pickBest]
    rw [if_neg (by simp)]
  | cons i1 is ih =>
    obtain ⟨i', hi', hr⟩ := ih i1
    have hstep : gridBest a b pops ahi bhi blo js alo (i0 :: i1 :: is) =
        pickBest (rowBest a b pops ahi bhi i0 blo js)
          (gridBest a b pops ahi bhi blo js alo (i1 :: is)) := rfl
    rw [hstep, hr]
    unfold pickBest
    by_cases h : (rowBest a b pops ahi bhi i0 blo js).2.2 <
        (rowBest a b pops ahi bhi i' blo js).2.2
    · rw [if_pos h]
      exact ⟨i', List.mem_cons_of_mem _ hi', rfl⟩
    · rw [if_neg h]
      exact ⟨i0, List.mem_cons_self _ _, rfl⟩

/-- A junk-free run between two suffixes is no longer than the run of the second suffix against itself (the same characters match and pass the same popularity test). -/
theorem lcpJunk_le_right_self (pops : List Char) :
    ∀ u v : List Char, lcpJunk pops u v ≤ lcpJunk pops v v := by
  intro u
  induction u with
  | nil => intro v; simp [lcpJunk]
  | cons c cs ih =>
    intro v
    cases v with
    | nil => simp [lcpJunk]
    | cons d ds =>
      by_cases hd : d ∈ pops
      · simp [lcpJunk, hd]
      · by_cases hcd : c = d
        · subst hcd
          simp only [lcpJunk]
          have := ih ds
          split_ifs <;> omega
        · simp [lcpJunk, hcd]

/-- A junk-free run between two suffixes is no longer than the run of the first suffix against itself. -/
theorem lcpJunk_le_left_self (pops : List Char) :
    ∀ u v : List Char, lcpJunk pops u v ≤ lcpJunk pops u u := by
  intro u
  induction u with
  | nil => intro v; simp [lcpJunk]
  | cons c cs ih =>
    intro v
    cases v with
    | nil => simp [lcpJunk]
    | cons d ds =>
      by_cases hd : d ∈ pops
      · simp [lcpJunk, hd]
      · by_cases hcd : c = d
        · subst hcd
          simp only [lcpJunk]
          have := ih ds
          split_ifs <;> omega
        · simp [lcpJunk, hcd]

theorem lcp_self (x : List Char) : lcp x x = x.length := by
  induction x with
  | nil => rfl
  | cons c cs ih => simp [lcp, ih]

/-- On identical strings the longest match is the whole string, autojunk included: the winning junk-free block lies on the diagonal (an off-diagonal maximizer is beaten by its diagonal shadow, which occurs earlier in scan order), and the extension passes, which ignore popularity because `bjunk` is empty, then stretch the diagonal block across the entire window. -/
theorem bestMatch_self (x : List Char) (hx : x ≠ []) :
    bestMatch x x 0 x.length 0 x.length = (0, 0, x.length) := by
  have hlen : 0 < x.length := List.length_pos.mpr hx
  obtain ⟨m, hm⟩ : ∃ m, x.length = m + 1 := ⟨x.length - 1, by omega⟩
  have hrange : List.range' 0 (x.length - 0) = 0 :: List.range' 1 m := by
    rw [Nat.sub_zero, hm, List.range'_succ]
  have hpw : (0 :: List.range' 1 m).Pairwise (· < ·) := by
    rw [← hrange]
    exact range'_pairwise_lt 0 (x.length - 0)
  unfold bestMatch
  simp only []
  rw [hrange]
  obtain ⟨i0, hi0, hgrid⟩ := gridBest_mem x x (popularChars x) x.length x.length 0
    (0 :: List.range' 1 m) 0 0 (List.range' 1 m)
  obtain ⟨j0, hj0, hrow⟩ := rowBest_mem x x (popularChars x) x.length x.length i0 0 0
    (List.range' 1 m)
  rw [hgrid, hrow]
  have hdiag : i0 = j0 := by
    have hd1 : matchAt x x (popularChars x) x.length x.length i0 j0 ≤
        matchAt x x (popularChars x) x.length x.length j0 j0 := by
      have hs := lcpJunk_le_right_self (popularChars x) (x.drop i0) (x.drop j0)
      unfold matchAt
      omega
    have hd2 : matchAt x x (popularChars x) x.length x.length i0 j0 ≤
        matchAt x x (popularChars x) x.length x.length i0 i0 := by
      have hs := lcpJunk_le_left_self (popularChars x) (x.drop i0) (x.drop j0)
      unfold matchAt
      omega
    rcases Nat.lt_trichotomy i0 j0 with hlt | heq | hgt
    · exfalso
      have hfirst := rowBest_first x x (popularChars x) x.length x.length i0 0
        (0 :: List.range' 1 m) hpw i0 hi0
        (by rw [hrow]; exact hlt)
      rw [hrow] at hfirst
      simp only at hfirst
      omega
    · exact heq
    · exfalso
      have hfirst := gridBest_first x x (popularChars x) x.length x.length 0
        (0 :: List.range' 1 m) 0 (0 :: List.range' 1 m) hpw j0 hj0
        (by rw [hgrid, rowBest_fst]; exact hgt)
      rw [hgrid, hrow] at hfirst
      simp only at hfirst
      have hle := rowBest_le x x (popularChars x) x.length x.length j0 0
        (0 :: List.range' 1 m) j0 hj0
      omega
  subst hdiag
  have hi0n : i0 < x.length := by
    rcases List.mem_cons.mp hi0 with rfl | hmem
    · omega
    · rw [List.mem_range'] at hmem
      omega
  have hk : matchAt x x (popularChars x) x.length x.length i0 i0 ≤ x.length - i0 :=
    matchAt_le_left x x (popularChars x) x.length x.length i0 i0
  unfold extendMatch
  simp only []
  have htake : ((x.take i0).reverse).length = i0 := by
    rw [List.length_reverse, List.length_take]
    omega
  have hdrop : (x.drop (i0 + matchAt x x (popularChars x) x.length x.length i0 i0)).length =
      x.length - (i0 + matchAt x x (popularChars x) x.length x.length i0 i0) := by
    rw [List.length_drop]
  rw [lcp_self, lcp_self, htake, hdrop]
  have h1 : min i0 (min (i0 - 0) (i0 - 0)) = i0 := by omega
  have h2 : min (x.length - (i0 + matchAt x x (popularChars x) x.length x.length i0 i0))
      (min (x.length - (i0 + matchAt x x (popularChars x) x.length x.length i0 i0))
        (x.length - (i0 + matchAt x x (popularChars x) x.length x.length i0 i0))) =
      x.length - (i0 + matchAt x x (popularChars x) x.length x.length i0 i0) := by omega
  rw [h1, h2]
  have h3 : i0 - i0 = 0 := by omega
  have h4 : matchAt x x (popularChars x) x.length x.length i0 i0 + i0 +
      (x.length - (i0 + matchAt x x (popularChars x) x.length x.length i0 i0)) = x.length := by
    omega
  rw [h3, h4]

/-- The spec's `similarity(x, x) = 1.0`, proved for the model with its autojunk heuristic (this matches CPython difflib, whose extension passes rebuild the full diagonal even when every element is popular). -/
theorem similarity_self (x : List Char) : similarity x x = 1 := by
  by_cases hx : x = []
  · subst hx; simp [similarity]
  · have hlen : 0 < x.length := List.length_pos.mpr hx
    unfold similarity
    rw [if_neg (by omega)]
    have hself := bestMatch_self x hx
    obtain ⟨n, hn⟩ : ∃ n, x.length + x.length + 1 = n + 1 := ⟨x.length + x.length, rfl⟩
    rw [hn]
    simp only [matchTotal, hself]
    rw [if_neg hlen.ne']
    simp only [Nat.zero_add]
    have hz1 : matchTotal x x n 0 0 0 0 = 0 := by
      have := matchTotal_le_left x x n 0 0 0 0
      omega
    have hz2 : matchTotal x x n x.length x.length x.length x.length = 0 := by
      have := matchTotal_le_left x x n x.length x.length x.length x.length
      omega
    rw [hz1, hz2]
    have he : 0 + x.length + 0 = x.length := by omega
    rw [he]
    have hnum : (2 * (x.length : Int)) = ((2 * x.length : Nat) : Int) := by
      push_cast; ring
    rw [hnum, mkRat_natCast_div]
    have hne : ((x.length + x.length : Nat) : ℚ) ≠ 0 := by
      have : (0 : ℚ) < ((x.length + x.length : Nat) : ℚ) := by exact_mod_cast by omega
      exact this.ne'
    rw [div_eq_one_iff_eq hne]
    push_cast
    ring

/-- When one string is at least twice as long as the other, the ratio
`2*M/T` cannot exceed `2/3` (since `M` is bounded by the shorter length). -/
theorem similarity_le_third (a b : List Char) (ha : 0 < a.length)
    (h : 2 * a.length ≤ b.length ∨ 2 * b.length ≤ a.length) :
    similarity a b ≤ 2/3 := by
  have h0 : a.length + b.length ≠ 0 := by omega
  · unfold similarity
    rw [if_neg h0]
    have hM1 := matchTotal_le_left a b (a.length + b.length + 1) 0 a.length 0 b.length
    have hM2 := matchTotal_le_right a b (a.length + b.length + 1) 0 a.length 0 b.length
    set M := matchTotal a b (a.length + b.length + 1) 0 a.length 0 b.length with hM
    have hnum : (2 * (M : Int)) = ((2 * M : Nat) : Int) := by push_cast; ring
    rw [hnum, mkRat_natCast_div]
    rw [div_le_div_iff₀ (by positivity) (by norm_num)]
    have h3 : 3 * M ≤ a.length + b.length := by omega
    have h3q : (3 : ℚ) * (M : ℚ) ≤ ((a.length + b.length : Nat) : ℚ) := by
      exact_mod_cast h3
    push_cast at h3q ⊢
    linarith

/-- The length pre-filter of `deduplicate`, read back as a fact about the
two lengths: failing it means one normalized text is at least twice as long
as the other. -/
theorem skip_to_nat (n e : Nat)
    (h : mkRat (n : Int) (max e 1) ≤ mkRat 1 2 ∨ (2 : ℚ) ≤ mkRat (n : Int) (max e 1)) :
    2 * n ≤ e ∨ 2 * e ≤ n := by
  have hm : (0 : ℚ) < ((max e 1 : Nat) : ℚ) := by
    have : 1 ≤ max e 1 := le_max_right e 1
    exact_mod_cast Nat.lt_of_lt_of_le Nat.zero_lt_one this
  have h12 : (mkRat 1 2 : ℚ) = 1/2 := by
    rw [Rat.mkRat_eq_divInt, Rat.divInt_eq_div]; norm_num
  rcases h with h | h
  · left
    rw [mkRat_natCast_div, h12] at h
    rw [div_le_div_iff₀ hm (by norm_num : (0:ℚ) < 2)] at h
    rw [one_mul] at h
    have h3 : n * 2 ≤ max e 1 := by exact_mod_cast h
    omega
  · right
    rw [mkRat_natCast_div] at h
    rw [le_div_iff₀ hm] at h
    have h3 : 2 * max e 1 ≤ n := by exact_mod_cast h
    omega

theorem mkRat_self_one (n : Nat) (hn : n ≠ 0) : mkRat (n : Int) n = 1 := by
  rw [mkRat_natCast_div]
  rw [div_self]
  exact_mod_cast hn

/-- The accepted records form a sublist of the processed list. -/
theorem dedupGo_sublist (t : ℚ) :
    ∀ (l : List Quote) (cache : List (List Char)), List.Sublist (dedupGo t l cache) l := by
  intro l
  induction l with
  | nil => intro cache; simp [dedupGo]
  | cons q rest ih =>
    intro cache
    simp only [dedupGo]
    by_cases h1 : (normalizeForComparison q.quote).length < 10
    · rw [if_pos h1]
      exact (ih cache).cons q
    · rw [if_neg h1]
      by_cases h2 : isDupOf t (normalizeForComparison q.quote) cache
      · rw [if_pos h2]
        exact (ih cache).cons q
      · rw [if_neg h2]
        exact (ih _).cons₂ q

/-- Re-running the dedup loop on its own output (from the same starting
cache) accepts every record again: the cache grows exactly by the accepted
normalized texts, so each record faces the same comparisons. -/
theorem dedupGo_idem (t : ℚ) :
    ∀ (l : List Quote) (cache : List (List Char)),
      dedupGo t (dedupGo t l cache) cache = dedupGo t l cache := by
  intro l
  induction l with
  | nil => intro cache; simp [dedupGo]
  | cons q rest ih =>
    intro cache
    simp only [dedupGo]
    by_cases h1 : (normalizeForComparison q.quote).length < 10
    · rw [if_pos h1]
      exact ih cache
    · rw [if_neg h1]
      by_cases h2 : isDupOf t (normalizeForComparison q.quote) cache
      · rw [if_pos h2]
        exact ih cache
      · rw [if_neg h2]
        simp only [dedupGo]
        rw [if_neg h1, if_neg h2]
        rw [ih (cache ++ [normalizeForComparison q.quote])]

/-- Reading back a failed duplicate test: for every cache entry, either the
similarity was computed and fell below the threshold, or the length
pre-filter skipped the pair. -/
theorem isDupOf_false (t : ℚ) (norm : List Char) (cache : List (List Char))
    (h : isDupOf t norm cache = false) (ex : List Char) (hex : ex ∈ cache) :
    similarity norm ex < t ∨
      mkRat (norm.length : Int) (max ex.length 1) ≤ mkRat 1 2 ∨
      (2 : ℚ) ≤ mkRat (norm.length : Int) (max ex.length 1) := by
  unfold isDupOf at h
  rw [List.any_eq_false] at h
  have h2 := h ex hex
  simp only [Bool.and_eq_true, decide_eq_true_eq, not_and, not_le, not_lt] at h2
  by_cases ha : mkRat 1 2 < mkRat (norm.length : Int) (max ex.length 1)
  · by_cases hb : mkRat (norm.length : Int) (max ex.length 1) < 2
    · left
      exact h2 ⟨ha, hb⟩
    · right; right
      exact le_of_not_lt hb
  · right; left
    exact le_of_not_lt ha

/-- Invariant of the dedup loop for thresholds above `2/3`: every accepted
record has similarity below the threshold to every cached normalized text,
and the accepted records are pairwise below the threshold (later against
earlier, the direction the code computes). -/
theorem dedupGo_pairwise_sim (t : ℚ) (ht : 2/3 < t) :
    ∀ (l : List Quote) (cache : List (List Char)),
      (∀ q ∈ dedupGo t l cache, ∀ ex ∈ cache,
        similarity (normalizeForComparison q.quote) ex < t) ∧
      (dedupGo t l cache).Pairwise
        (fun q1 q2 => similarity (normalizeForComparison q2.quote)
          (normalizeForComparison q1.quote) < t) := by
  intro l
  induction l with
  | nil => intro cache; simp [dedupGo]
  | cons q rest ih =>
    intro cache
    simp only [dedupGo]
    by_cases h1 : (normalizeForComparison q.quote).length < 10
    · rw [if_pos h1]
      exact ih cache
    · rw [if_neg h1]
      by_cases h2 : isDupOf t (normalizeForComparison q.quote) cache
      · rw [if_pos h2]
        exact ih cache
      · rw [if_neg h2]
        have hq : ∀ ex ∈ cache, similarity (normalizeForComparison q.quote) ex < t := by
          intro ex hex
          rcases isDupOf_false t _ cache (Bool.not_eq_true _ ▸ h2 : _) ex hex with
            hlt | hskip | hskip
          · exact hlt
          · have hnat := skip_to_nat (normalizeForComparison q.quote).length ex.length
              (Or.inl hskip)
            have hb := similarity_le_third (normalizeForComparison q.quote) ex
              (by omega) hnat
            linarith
          · have hnat := skip_to_nat (normalizeForComparison q.quote).length ex.length
              (Or.inr hskip)
            have hb := similarity_le_third (normalizeForComparison q.quote) ex
              (by omega) hnat
            linarith
        constructor
        · intro q2 hq2 ex hex
          rcases List.mem_cons.mp hq2 with rfl | hmem
          · exact hq ex hex
          · exact (ih (cache ++ [normalizeForComparison q.quote])).1 q2 hmem ex
              (List.mem_append_left _ hex)
        · rw [List.pairwise_cons]
          constructor
          · intro q2 hq2
            exact (ih (cache ++ [normalizeForComparison q.quote])).1 q2 hq2
              (normalizeForComparison q.quote)
              (List.mem_append_right _ (List.mem_singleton_self _))
          · exact (ih (cache ++ [normalizeForComparison q.quote])).2

/-- Invariant of the dedup loop for thresholds at most `1`: no accepted
record repeats a cached normalized text, and the accepted records have
pairwise distinct normalized texts (a repeat passes the length pre-filter
with ratio `1` and scores similarity `1 ≥ t`). -/
theorem dedupGo_pairwise_norm (t : ℚ) (ht : t ≤ 1) :
    ∀ (l : List Quote) (cache : List (List Char)),
      (∀ q ∈ dedupGo t l cache, normalizeForComparison q.quote ∉ cache) ∧
      (dedupGo t l cache).Pairwise
        (fun q1 q2 => normalizeForComparison q1.quote ≠ normalizeForComparison q2.quote) := by
  intro l
  induction l with
  | nil => intro cache; simp [dedupGo]
  | cons q rest ih =>
    intro cache
    simp only [dedupGo]
    by_cases h1 : (normalizeForComparison q.quote).length < 10
    · rw [if_pos h1]
      exact ih cache
    · rw [if_neg h1]
      by_cases h2 : isDupOf t (normalizeForComparison q.quote) cache
      · rw [if_pos h2]
        exact ih cache
      · rw [if_neg h2]
        have hq : normalizeForComparison q.quote ∉ cache := by
          intro hmem
          rcases isDupOf_false t _ cache (Bool.not_eq_true _ ▸ h2 : _)
            (normalizeForComparison q.quote) hmem with hlt | hskip | hskip
          · have hself := similarity_self (normalizeForComparison q.quote)
            rw [hself] at hlt
            linarith
          · rw [Nat.max_eq_left (by omega), mkRat_self_one _ (by omega)] at hskip
            have h12 : (mkRat 1 2 : ℚ) = 1/2 := by
              rw [Rat.mkRat_eq_divInt, Rat.divInt_eq_div]
              norm_num
            rw [h12] at hskip
            linarith
          · rw [Nat.max_eq_left (by omega), mkRat_self_one _ (by omega)] at hskip
            linarith
        constructor
        · intro q2 hq2
          rcases List.mem_cons.mp hq2 with rfl | hmem
          · exact hq
          · intro hmem2
            exact (ih (cache ++ [normalizeForComparison q.quote])).1 q2 hmem
              (List.mem_append_left _ hmem2)
        · rw [List.pairwise_cons]
          constructor
          · intro q2 hq2 heq
            exact (ih (cache ++ [normalizeForComparison q.quote])).1 q2 hq2
              (heq ▸ List.mem_append_right _ (List.mem_singleton_self _))
          · exact (ih (cache ++ [normalizeForComparison q.quote])).2

/-- Conversion of `Char.ofNat` back to `Nat` on valid codepoints. -/
theorem char_toNat_ofNat_valid {n : Nat} (h : Nat.isValidChar n) :
    (Char.ofNat n).toNat = n := by
  rw [Char.ofNat, dif_pos h]
  rfl

theorem char_toLower_idem (c : Char) :
    Char.toLower (Char.toLower c) = Char.toLower c := by
  unfold Char.toLower
  by_cases h : c.toNat ≥ 65 ∧ c.toNat ≤ 90
  · rw [if_pos h]
    have hv : Nat.isValidChar (c.toNat + 32) := Or.inl (by omega)
    have ht := char_toNat_ofNat_valid hv
    rw [if_neg (by omega)]
  · rw [if_neg h, if_neg h]

/-- Characters of the collapsed string are the emitted space or non-space
characters of the input. -/
theorem mem_collapseWsAux :
    ∀ (flag : Bool) (l : List Char) (c : Char), c ∈ collapseWsAux flag l →
      c = ' ' ∨ (c ∈ l ∧ isPySpace c = false) := by
  intro flag l
  induction l generalizing flag with
  | nil => intro c hc; simp [collapseWsAux] at hc
  | cons d rest ih =>
    intro c hc
    simp only [collapseWsAux] at hc
    by_cases hd : isPySpace d
    · rw [if_pos hd] at hc
      by_cases hf : flag
      · subst hf
        rw [if_pos rfl] at hc
        rcases ih true c hc with h | ⟨h1, h2⟩
        · left; exact h
        · right; exact ⟨List.mem_cons_of_mem _ h1, h2⟩
      · simp only [hf] at hc
        rw [if_neg (by simp)] at hc
        rcases List.mem_cons.mp hc with rfl | hc2
        · left; rfl
        · rcases ih true c hc2 with h | ⟨h1, h2⟩
          · left; exact h
          · right; exact ⟨List.mem_cons_of_mem _ h1, h2⟩
    · rw [if_neg hd] at hc
      rcases List.mem_cons.mp hc with rfl | hc2
      · right; exact ⟨List.mem_cons_self _ _, by simpa using hd⟩
      · rcases ih false c hc2 with h | ⟨h1, h2⟩
        · left; exact h
        · right; exact ⟨List.mem_cons_of_mem _ h1, h2⟩

/-- After a space has just been emitted, the next emitted character is not
whitespace. -/
theorem head_collapseWsAux_true (l : List Char) (c : Char)
    (h : (collapseWsAux true l).head? = some c) : isPySpace c = false := by
  induction l with
  | nil => simp [collapseWsAux] at h
  | cons d rest ih =>
    simp only [collapseWsAux] at h
    by_cases hd : isPySpace d
    · rw [if_pos hd] at h
      simp only [if_true] at h
      exact ih h
    · rw [if_neg hd] at h
      simp only [List.head?_cons, Option.some_inj] at h
      subst h
      simpa using hd

/-- The collapsed string never contains two adjacent spaces. -/
theorem chain_collapseWsAux (flag : Bool) (l : List Char) :
    (collapseWsAux flag l).Chain' (fun a b => ¬(a = ' ' ∧ b = ' ')) := by
  induction l generalizing flag with
  | nil => simp [collapseWsAux]
  | cons d rest ih =>
    simp only [collapseWsAux]
    by_cases hd : isPySpace d
    · rw [if_pos hd]
      by_cases hf : flag
      · subst hf
        rw [if_pos rfl]
        exact ih true
      · simp only [hf]
        rw [if_neg (by simp)]
        rw [List.chain'_cons']
        refine ⟨?_, ih true⟩
        intro b hb h
        have := head_collapseWsAux_true rest b hb
        rw [h.2] at this
        simp [isPySpace] at this
    · rw [if_neg hd]
      rw [List.chain'_cons']
      refine ⟨?_, ih false⟩
      intro b hb h
      rw [h.1] at hd
      exact hd (by simp [isPySpace])

/-- Collapsing fixes a string whose only whitespace is single spaces. -/
theorem collapseWsAux_fix (l : List Char)
    (hsp : ∀ c ∈ l, isPySpace c = true → c = ' ')
    (hch : l.Chain' (fun a b => ¬(a = ' ' ∧ b = ' '))) :
    collapseWsAux false l = l ∧
      ((∀ c, l.head? = some c → isPySpace c = false) → collapseWsAux true l = l) := by
  induction l with
  | nil => simp [collapseWsAux]
  | cons d rest ih =>
    have hsp2 : ∀ c ∈ rest, isPySpace c = true → c = ' ' :=
      fun c hc => hsp c (List.mem_cons_of_mem _ hc)
    have hch2 : rest.Chain' (fun a b => ¬(a = ' ' ∧ b = ' ')) :=
      (List.chain'_cons'.mp hch).2
    have ihr := ih hsp2 hch2
    constructor
    · simp only [collapseWsAux]
      by_cases hd : isPySpace d
      · rw [if_pos hd]
        have hdsp : d = ' ' := hsp d (List.mem_cons_self _ _) hd
        subst hdsp
        rw [if_neg (by simp)]
        congr 1
        apply ihr.2
        intro c hc
        by_cases hcsp : isPySpace c
        · have : c = ' ' := hsp2 c (List.mem_of_mem_head? hc) hcsp
          subst this
          have := (List.chain'_cons'.mp hch).1 ' ' hc
          simp at this
        · simpa using hcsp
      · rw [if_neg hd]
        rw [ihr.1]
    · intro hhead
      simp only [collapseWsAux]
      have hd : isPySpace d = false := hhead d rfl
      rw [if_neg (by simp [hd])]
      rw [ihr.1]

theorem mem_pyStrip (l : List Char) (c : Char) (h : c ∈ pyStrip l) : c ∈ l := by
  unfold pyStrip at h
  rw [List.mem_reverse] at h
  have h2 := (List.dropWhile_sublist isPySpace).subset h
  rw [List.mem_reverse] at h2
  exact (List.dropWhile_sublist isPySpace).subset h2

theorem map_toLower_fix (l : List Char) (h : ∀ c ∈ l, Char.toLower c = c) :
    l.map Char.toLower = l := by
  induction l with
  | nil => rfl
  | cons c rest ih =>
    simp only [List.map_cons]
    rw [h c (List.mem_cons_self _ _), ih (fun d hd => h d (List.mem_cons_of_mem _ hd))]

/-- Every character of a normalized string is a space or a kept, lowered
word-class character. -/
theorem norm_char_shape (x : List Char) (c : Char) (h : c ∈ normalizeForComparison x) :
    c = ' ' ∨ ((isPyWordChar c || isPySpace c) = true ∧ ∃ d, c = Char.toLower d) := by
  unfold normalizeForComparison collapseWs at h
  rcases mem_collapseWsAux false _ c h with h1 | ⟨h1, _⟩
  · left; exact h1
  · right
    have hkeep := List.of_mem_filter h1
    have hmem := List.mem_of_mem_filter h1
    have hmem2 := mem_pyStrip _ c hmem
    rcases List.mem_map.mp hmem2 with ⟨d, _, hd⟩
    exact ⟨hkeep, d, hd.symm⟩

/-- The normalizer fixes any of its outputs that carries no leading or
trailing whitespace (the strip step is the only one that can differ on a
second pass, because stripping happens before punctuation removal). -/
theorem norm_conditional_idem (x : List Char)
    (hstrip : pyStrip (normalizeForComparison x) = normalizeForComparison x) :
    normalizeForComparison (normalizeForComparison x) = normalizeForComparison x := by
  have hmapfix : (normalizeForComparison x).map Char.toLower = normalizeForComparison x := by
    apply map_toLower_fix
    intro c hc
    rcases norm_char_shape x c hc with rfl | ⟨_, d, rfl⟩
    · decide
    · exact char_toLower_idem d
  have hfilterfix : (normalizeForComparison x).filter
      (fun c => isPyWordChar c || isPySpace c) = normalizeForComparison x := by
    apply List.filter_eq_self.mpr
    intro c hc
    rcases norm_char_shape x c hc with rfl | ⟨h1, _⟩
    · decide
    · exact h1
  have hsp : ∀ c ∈ normalizeForComparison x, isPySpace c = true → c = ' ' := by
    intro c hc hcsp
    rcases mem_collapseWsAux false _ c hc with h1 | ⟨_, h2⟩
    · exact h1
    · rw [hcsp] at h2
      cases h2
  have hch : (normalizeForComparison x).Chain' (fun a b => ¬(a = ' ' ∧ b = ' ')) :=
    chain_collapseWsAux false _
  have hcollfix : collapseWsAux false (normalizeForComparison x) = normalizeForComparison x :=
    (collapseWsAux_fix (normalizeForComparison x) hsp hch).1
  calc normalizeForComparison (normalizeForComparison x)
      = collapseWsAux false ((pyStrip ((normalizeForComparison x).map Char.toLower)).filter
          (fun c => isPyWordChar c || isPySpace c)) := rfl
    _ = normalizeForComparison x := by rw [hmapfix, hstrip, hfilterfix, hcollfix]

/-!
Claim theorems.
-/

set_option maxRecDepth 1000000

/-- Concrete checks of the autojunk machinery: in a 200-character string a
character occurring 200 times is popular (200 > 200/100 + 1) and blocks
junk-free runs, while strings shorter than 200 characters have no popular
characters at all. -/
theorem autojunk_checks :
    popularChars (List.replicate 200 'a') = ['a'] ∧
    popularChars "abab".toList = [] ∧
    lcpJunk ['a'] (List.replicate 5 'a') (List.replicate 5 'a') = 0 ∧
    lcpJunk [] "ab".toList "ab".toList = 2 := by
  refine ⟨by decide, by decide, by decide, by decide⟩

/-- C1, counterexample: the claimed guarantee fails for thresholds in
`[0, 1]` that the pre-filter can undercut.  At threshold `1/2` (which lies
in `[0, 1]`), the input of a 10-character and a 20-character record is
returned unchanged — the length pre-filter skips the pair — yet the two
normalized texts have similarity `2/3 ≥ 1/2` in both directions. -/
theorem c1_counterexample :
    deduplicate [{ quote := "aaaaaaaaaa".toList }, { quote := "aaaaaaaaaaaaaaaaaaaa".toList }]
        (1/2) =
      [{ quote := "aaaaaaaaaa".toList }, { quote := "aaaaaaaaaaaaaaaaaaaa".toList }] ∧
    (1/2 : ℚ) ≤ similarity (normalizeForComparison "aaaaaaaaaaaaaaaaaaaa".toList)
        (normalizeForComparison "aaaaaaaaaa".toList) ∧
    (1/2 : ℚ) ≤ similarity (normalizeForComparison "aaaaaaaaaa".toList)
        (normalizeForComparison "aaaaaaaaaaaaaaaaaaaa".toList) ∧
    (0 : ℚ) ≤ 1/2 ∧ (1/2 : ℚ) ≤ 1 := by
  have h : (1/2 : ℚ) = mkRat 1 2 := by
    rw [Rat.mkRat_eq_divInt, Rat.divInt_eq_div]
    norm_num
  rw [h]
  refine ⟨by decide, by decide, by decide, by norm_num, by norm_num⟩

/-- C1, amended: the deduplication guarantee holds for every threshold
above `2/3`: in the output of `deduplicate`, every later record's
normalized text has similarity below the threshold to every earlier one
(the direction the code computes).  Pairs skipped by the length pre-filter
have similarity at most `2/3`, so they cannot violate such a threshold. -/
theorem c1_prefilter_guarantee_above_two_thirds (qs : List Quote) (t : ℚ)
    (ht : 2/3 < t) :
    (deduplicate qs t).Pairwise (fun q1 q2 =>
      similarity (normalizeForComparison q2.quote)
        (normalizeForComparison q1.quote) < t) := by
  unfold deduplicate
  by_cases h : qs.isEmpty
  · simp [h]
  · rw [if_neg h]
    exact (dedupGo_pairwise_sim t ht (sortByScoreDesc qs) []).2

/-- Witness for C1 amended at the concrete threshold `1`. -/
theorem c1_prefilter_guarantee_above_two_thirds_witness :
    (2/3 : ℚ) < 1 ∧
      (deduplicate [{ quote := "aaaaaaaaaa".toList }] 1).Pairwise (fun q1 q2 =>
        similarity (normalizeForComparison q2.quote)
          (normalizeForComparison q1.quote) < 1) :=
  ⟨by norm_num,
    c1_prefilter_guarantee_above_two_thirds [{ quote := "aaaaaaaaaa".toList }] 1
      (by norm_num)⟩

/-- C2: the enricher's match decision on a quote and a normalized
transcript coincides, for all inputs, with the reference decision written
from the specification (tier-1 exact substring; at most 5 words means no
fuzzy tier; otherwise stride-3 chunks of `min(5, wordcount-1)` words with
the `(count ≥ 3 ∧ matched ≥ 2) ∨ (count < 3 ∧ matched ≥ 1)` rule). -/
theorem c2_find_in_transcript_matches_spec (q t : List Char) :
    findInTranscript q t = findInTranscriptSpecRef q t := by
  unfold findInTranscript findInTranscriptSpecRef
  by_cases h1 : containsSub t (normalizeForComparison q)
  · simp [h1]
  · simp only [h1, Bool.false_eq_true, if_false]
    by_cases h2 : (pySplit (normalizeForComparison q)).length ≤ 5
    · simp [h2]
    · simp only [h2, if_false]
      set ws := pySplit (normalizeForComparison q) with hws
      set cs := min 5 (ws.length - 1) with hcs
      set chunks := (pyRange3 (ws.length - cs + 1)).map (chunkAt ws cs) with hchunks
      by_cases h3 : chunks.isEmpty
      · have : chunks = [] := List.isEmpty_iff.mp h3
        simp [h3, this]
      · simp only [h3, if_false]
        set m := (chunks.filter (containsSub t)).length with hm
        by_cases h4 : 3 ≤ chunks.length
        · simp only [ge_iff_le, h4, if_pos]
          cases Nat.lt_or_ge m 2 with
          | inl hlt => simp [Nat.not_le.mpr hlt, h4]
          | inr hge => simp [hge, h4]
        · simp only [ge_iff_le, h4, if_neg]
          have hlen : chunks.length < 3 := Nat.not_le.mp h4
          cases Nat.lt_or_ge m 1 with
          | inl hlt => simp [Nat.not_le.mpr hlt, hlen]
          | inr hge => simp [hge, hlen]

/-- C3, counterexample: a record that enters enrichment with `season`
absent but `episode` and `episode_title` non-null has both of those fields
overwritten when a transcript matches: here `episode` goes from `99` to
`3` and `episode_title` from `"X"` to `""`. -/
theorem c3_counterexample :
    (enrichQuotes [((1, 3), "hello there my friend ok".toList)] []
        [{ quote := "hello there my friend".toList, episode := some 99,
           episode_title := some "X".toList }]).map Quote.episode = [some 3] ∧
    (enrichQuotes [((1, 3), "hello there my friend ok".toList)] []
        [{ quote := "hello there my friend".toList, episode := some 99,
           episode_title := some "X".toList }]).map Quote.episode_title = [some [] ] ∧
    ({ quote := "hello there my friend".toList, episode := some 99,
       episode_title := some "X".toList } : Quote).episode = some 99 ∧
    ({ quote := "hello there my friend".toList, episode := some 99,
       episode_title := some "X".toList } : Quote).episode_title = some "X".toList := by
  refine ⟨by decide, by decide, rfl, rfl⟩

/-- C3, amended: `enrich_quotes` only processes records whose `season` is
absent; a record whose `season` is non-null passes through completely
unchanged (so a non-null `season` is never overwritten); but for a record
with `season` absent, non-null `episode` or `episode_title` values are
overwritten on a match. -/
theorem c3_season_tagged_untouched (T ti : List ((Nat × Nat) × List Char))
    (qs : List Quote) (i : Nat) (q : Quote) (h : qs[i]? = some q)
    (hs : q.season ≠ none) :
    (enrichQuotes T ti qs)[i]? = some q := by
  simp only [enrichQuotes, List.getElem?_map, h, Option.map_some]
  simp [hs]

/-- Witness for C3 amended on a concrete tagged record. -/
theorem c3_season_tagged_untouched_witness :
    (([{ quote := "hello world sample".toList, season := some 2 }] : List Quote)[0]? =
      some { quote := "hello world sample".toList, season := some 2 }) ∧
    ({ quote := "hello world sample".toList, season := some 2 } : Quote).season ≠ none ∧
    (enrichQuotes [] [] [{ quote := "hello world sample".toList, season := some 2 }])[0]? =
      some { quote := "hello world sample".toList, season := some 2 } :=
  ⟨rfl, by decide,
    c3_season_tagged_untouched [] [] [{ quote := "hello world sample".toList, season := some 2 }]
      0 { quote := "hello world sample".toList, season := some 2 } rfl (by decide)⟩

/-- C4: for every input list and every fixed threshold, `deduplicate`
returns at most as many records as it was given, and it is idempotent:
running it again on its own output (same threshold) returns that output
unchanged. -/
theorem c4_dedup_size_and_idempotent (qs : List Quote) (t : ℚ) :
    (deduplicate qs t).length ≤ qs.length ∧
      deduplicate (deduplicate qs t) t = deduplicate qs t := by
  constructor
  · unfold deduplicate
    by_cases h : qs.isEmpty
    · simp [h]
    · rw [if_neg h]
      have h1 := (dedupGo_sublist t (sortByScoreDesc qs) []).length_le
      have h2 : (sortByScoreDesc qs).length = qs.length :=
        (List.perm_insertionSort scoreGe qs).length_eq
      omega
  · by_cases h : qs.isEmpty
    · unfold deduplicate
      simp [h]
    · have hout : deduplicate qs t = dedupGo t (sortByScoreDesc qs) [] := by
        unfold deduplicate
        rw [if_neg h]
      rw [hout]
      by_cases h2 : (dedupGo t (sortByScoreDesc qs) []).isEmpty
      · unfold deduplicate
        rw [if_pos h2]
        exact (List.isEmpty_iff.mp h2).symm
      · unfold deduplicate
        rw [if_neg h2]
        have hs := List.Pairwise.sublist (dedupGo_sublist t (sortByScoreDesc qs) [])
          (List.sorted_insertionSort scoreGe qs)
        have heq : sortByScoreDesc (dedupGo t (sortByScoreDesc qs) []) =
            dedupGo t (sortByScoreDesc qs) [] := List.Sorted.insertionSort_eq hs
        rw [heq]
        exact dedupGo_idem t (sortByScoreDesc qs) []

/-- C5, counterexample: the normalizer strips whitespace before it removes
punctuation, so `"! _a"` normalizes to `" _a"` — which still carries a
leading space and the underscore — and a second application gives the
different string `"_a"`: the normalizer is not idempotent, and underscores
(matched by Python's `\w`) are kept, not stripped. -/
theorem c5_counterexample :
    normalizeForComparison (normalizeForComparison "! _a".toList) ≠
        normalizeForComparison "! _a".toList ∧
      normalizeForComparison "! _a".toList = " _a".toList ∧
      normalizeForComparison " _a".toList = "_a".toList := by
  refine ⟨?_, by decide, by decide⟩
  decide

/-- C5, amended: the normalizer lowercases, trims the ends first, then
strips every character that is not a letter, digit, underscore, or
whitespace, then collapses whitespace runs; the example
`normalize("  Hello,  World!  ") = "hello world"` holds; underscores are
kept; and normalization is idempotent on exactly those inputs whose
normalized form carries no leading or trailing whitespace. -/
theorem c5_normalizer_props :
    normalizeForComparison "  Hello,  World!  ".toList = "hello world".toList ∧
    normalizeForComparison "_a".toList = "_a".toList ∧
    ∀ x : List Char, pyStrip (normalizeForComparison x) = normalizeForComparison x →
      normalizeForComparison (normalizeForComparison x) = normalizeForComparison x := by
  refine ⟨by decide, by decide, ?_⟩
  exact norm_conditional_idem

/-- Witness for C5 amended on a concrete input. -/
theorem c5_normalizer_props_witness :
    pyStrip (normalizeForComparison "abc def".toList) =
        normalizeForComparison "abc def".toList ∧
      normalizeForComparison (normalizeForComparison "abc def".toList) =
        normalizeForComparison "abc def".toList :=
  ⟨by decide, c5_normalizer_props.2.2 "abc def".toList (by decide)⟩

/-- C6, counterexample: two records whose normalized texts are identical do
not always collapse to exactly one record — when the shared normalized text
is shorter than 10 characters both records are dropped as artifacts, and
the output contains zero of them. -/
theorem c6_counterexample :
    normalizeForComparison ("aaa".toList) = normalizeForComparison ("aaa!".toList) ∧
      deduplicate [{ quote := "aaa".toList }, { quote := "aaa!".toList }] (85/100) = [] := by
  have h : (85/100 : ℚ) = mkRat 85 100 := by
    rw [Rat.mkRat_eq_divInt, Rat.divInt_eq_div]
    norm_num
  rw [h]
  exact ⟨by decide, by decide⟩

/-- C6, amended: for every threshold at most `1`, no two records of the
deduplicated output have identical normalized texts (so two surviving
duplicates are impossible; identical-norm records collapse to at most
one); and the spec's concrete example holds: the two "Power isn't
something you're given" records at threshold `0.85` collapse to exactly
the record carrying `season = 1`. -/
theorem c6_identical_norms_collapse :
    (∀ (qs : List Quote) (t : ℚ), t ≤ 1 →
      (deduplicate qs t).Pairwise (fun q1 q2 =>
        normalizeForComparison q1.quote ≠ normalizeForComparison q2.quote)) ∧
    deduplicate
      [{ quote := "Power isn't something you're given. It's something you take.".toList },
       { quote := "power isnt something youre given its something you take".toList,
         season := some 1 }] (85/100) =
      [{ quote := "power isnt something youre given its something you take".toList,
         season := some 1 }] := by
  constructor
  · intro qs t ht
    unfold deduplicate
    by_cases h : qs.isEmpty
    · simp [h]
    · rw [if_neg h]
      exact (dedupGo_pairwise_norm t ht (sortByScoreDesc qs) []).2
  · have h : (85/100 : ℚ) = mkRat 85 100 := by
      rw [Rat.mkRat_eq_divInt, Rat.divInt_eq_div]
      norm_num
    rw [h]
    decide

/-- Witness for C6 amended at the concrete threshold `1`. -/
theorem c6_identical_norms_collapse_witness :
    (1 : ℚ) ≤ 1 ∧
      (deduplicate [{ quote := "aaaaaaaaaa".toList }] 1).Pairwise (fun q1 q2 =>
        normalizeForComparison q1.quote ≠ normalizeForComparison q2.quote) :=
  ⟨le_refl 1,
    c6_identical_norms_collapse.1 [{ quote := "aaaaaaaaaa".toList }] 1 (le_refl 1)⟩

/-- C7: the transcript fetch-and-cache operation returns the empty string
and leaves the cache untouched on a request failure or a missing
transcript container (so a failed fetch never creates a retrievable cache
entry); it writes the cache only on success; and a later call for the same
key returns exactly the cached text without touching the network. -/
theorem c7_fetch_and_cache_contract (c : Cache) (k : Nat × Nat) (w : FetchOutcome) :
    (List.lookup k c = none → w = FetchOutcome.fail ∨ w = FetchOutcome.page none →
      fetchAndCacheTranscript c k w = ⟨[], c, true⟩) ∧
    (∀ t, List.lookup k c = some t →
      fetchAndCacheTranscript c k w = ⟨t, c, false⟩) ∧
    (∀ tr, List.lookup k c = none → w = FetchOutcome.page (some tr) →
      (fetchAndCacheTranscript c k w).text = tr ∧
      List.lookup k (fetchAndCacheTranscript c k w).cache = some tr ∧
      ∀ w2, fetchAndCacheTranscript (fetchAndCacheTranscript c k w).cache k w2 =
        ⟨tr, (fetchAndCacheTranscript c k w).cache, false⟩) := by
  refine ⟨?_, ?_, ?_⟩
  · intro h hw
    rcases hw with hw | hw <;> simp [fetchAndCacheTranscript, h, hw]
  · intro t ht
    simp [fetchAndCacheTranscript, ht]
  · intro tr h hw
    subst hw
    simp [fetchAndCacheTranscript, h, List.lookup]

/-- Witness for C7 on a concrete empty cache and a successful fetch
followed by a cache-hit call. -/
theorem c7_fetch_and_cache_contract_witness :
    List.lookup (1, 2) ([] : Cache) = none ∧
    (fetchAndCacheTranscript [] (1, 2) (FetchOutcome.page (some "hi".toList))).text =
      "hi".toList ∧
    List.lookup (1, 2)
        (fetchAndCacheTranscript [] (1, 2) (FetchOutcome.page (some "hi".toList))).cache =
      some "hi".toList ∧
    fetchAndCacheTranscript
        (fetchAndCacheTranscript [] (1, 2) (FetchOutcome.page (some "hi".toList))).cache
        (1, 2) FetchOutcome.fail =
      ⟨"hi".toList,
        (fetchAndCacheTranscript [] (1, 2) (FetchOutcome.page (some "hi".toList))).cache,
        false⟩ :=
  ⟨rfl,
    ((c7_fetch_and_cache_contract [] (1, 2) (FetchOutcome.page (some "hi".toList))).2.2
      "hi".toList rfl rfl).1,
    ((c7_fetch_and_cache_contract [] (1, 2) (FetchOutcome.page (some "hi".toList))).2.2
      "hi".toList rfl rfl).2.1,
    ((c7_fetch_and_cache_contract [] (1, 2) (FetchOutcome.page (some "hi".toList))).2.2
      "hi".toList rfl rfl).2.2 FetchOutcome.fail⟩

/-- C8, counterexample: the delay before a scraper page fetch is
`random.uniform(1.0, 3.0)`, so the random draw `0 ∈ [0, 1]` yields a delay
of exactly `1` second, which is below the claimed lower bound `1.5`. -/
theorem c8_counterexample :
    fetchPageDelayDuration 0 = 1 ∧ ¬((3/2 : ℚ) ≤ fetchPageDelayDuration 0) ∧
      (0 : ℚ) ≤ 0 ∧ (0 : ℚ) ≤ 1 := by
  refine ⟨?_, ?_, le_refl 0, by norm_num⟩ <;>
    norm_num [fetchPageDelayDuration, politeDelayDuration]

/-- C8, amended: every scraper page fetch delay lies in `[1, 3]` seconds
(not `[1.5, 3]`), and the transcript download delay is the constant `1.5`
seconds, which does lie in `[1.5, 3]`. -/
theorem c8_delay_duration_bounds (r : ℚ) (h0 : 0 ≤ r) (h1 : r ≤ 1) :
    (1 ≤ fetchPageDelayDuration r ∧ fetchPageDelayDuration r ≤ 3) ∧
      3/2 ≤ transcriptDelayDuration ∧ transcriptDelayDuration ≤ 3 := by
  refine ⟨⟨?_, ?_⟩, by norm_num [transcriptDelayDuration],
      by norm_num [transcriptDelayDuration]⟩ <;>
    · simp only [fetchPageDelayDuration, politeDelayDuration]
      nlinarith

/-- Witness for C8 amended at the concrete draw `1/2`. -/
theorem c8_delay_duration_bounds_witness :
    (0 : ℚ) ≤ 1/2 ∧ (1/2 : ℚ) ≤ 1 ∧
      ((1 ≤ fetchPageDelayDuration (1/2) ∧ fetchPageDelayDuration (1/2) ≤ 3) ∧
        3/2 ≤ transcriptDelayDuration ∧ transcriptDelayDuration ≤ 3) :=
  ⟨by norm_num, by norm_num, c8_delay_duration_bounds (1/2) (by norm_num) (by norm_num)⟩

/-- C9: the deduplicator only selects records: its output is a
sub-permutation of the input (so each input record, counted with
multiplicity, appears at most as often as in the input), and every output
record is one of the input records with every field unchanged. -/
theorem c9_output_records_from_input (qs : List Quote) (t : ℚ) :
    List.Subperm (deduplicate qs t) qs ∧ ∀ q ∈ deduplicate qs t, q ∈ qs := by
  have hsub : List.Subperm (deduplicate qs t) qs := by
    unfold deduplicate
    by_cases h : qs.isEmpty
    · rw [if_pos h]
      exact List.nil_subperm
    · rw [if_neg h]
      exact ((dedupGo_sublist t _ []).subperm).trans
        (List.perm_insertionSort scoreGe qs).subperm
  exact ⟨hsub, fun q hq => hsub.subset hq⟩

/-- C10: in the read API's list operation, a `season` or `episode` filter
value of `0` is falsy in Python, so it is treated as no filter at all and
the whole loaded collection is returned. -/
theorem c10_zero_filter_returns_all (qs : List Quote) :
    getQuotes qs (some 0) none = qs ∧ getQuotes qs none (some 0) = qs ∧
      getQuotes qs (some 0) (some 0) = qs := by
  refine ⟨?_, ?_, ?_⟩ <;> simp [getQuotes, truthyNat]

end Reddington
